import Mathlib

/-!
# Verification of the djanbee settings-file editor

Shallow embedding of the text-surgery core of
`src/djanbee/managers/django_manager.py` (class `DjangoManager`) and of
`src/djanbee/managers/django_manager/services/settings_operations/databases_handler.py`
(class `DatabasesHandler`).

Documents are modelled as `List Char` (the Python `str` read from the
settings file).  The Python `re` patterns used by the code are fixed-shape
(a literal name, `\s*`/`\s+` runs, one-character classes), so each pattern
is embedded as an executable matcher that reproduces Python's
leftmost-first semantics with greedy quantifiers for exactly those shapes.
File I/O is modelled by passing the document text in and returning the text
that would be written, `Option`-wrapped where the code can abort before
writing.
-/

namespace Djanbee

/-- Python's `\s` character class, restricted to the ASCII range
(space, tab, newline, carriage return, vertical tab, form feed). -/
def isPySpace (c : Char) : Bool :=
  c = ' ' || c = '\t' || c = '\n' || c = '\r' || c = '\x0b' || c = '\x0c'

/-- Strip a required literal (the regex's literal fragment, e.g. the setting
name) from the head of `s`; `some` returns the remainder. -/
def stripLit : List Char → List Char → Option (List Char)
  | [], s => some s
  | _ :: _, [] => none
  | p :: ps, c :: cs => if p = c then stripLit ps cs else none

/-- Characters admitted by the value class `[^#\n]` of the simple and
commented assignment patterns. -/
def isSimpleValChar (c : Char) : Bool :=
  !(c = '#' || c = '\n')

/-- Characters admitted by the value class `[^,}]` of the dictionary-entry
pattern. -/
def isDictValChar (c : Char) : Bool :=
  !(c = ',' || c = '}')

/-- Backtracking of a greedy `\s*` that precedes a one-character-class `+`:
the largest `k ≤ bound` such that `u.drop k` starts with a character
accepted by `ok`.  Python tries the longest whitespace run first and backs
off until the following `+` can consume at least one character. -/
def lastGoodK (ok : Char → Bool) (u : List Char) : Nat → Option Nat
  | 0 =>
    match u with
    | c :: _ => if ok c then some 0 else none
    | [] => none
  | k + 1 =>
    match u.drop (k + 1) with
    | c :: _ => if ok c then some (k + 1) else lastGoodK ok u k
    | [] => lastGoodK ok u k

/-- A regex match as the code uses it: the captured prefix group
(`group(1)`), the captured value group (`group(2)`), and the text that
follows the whole match.  For all three patterns of `edit_settings` the
full match is `g1 ++ g2`. -/
structure ReMatch where
  g1 : List Char
  g2 : List Char
  rest : List Char
deriving Repr, DecidableEq

/-- Match of the simple-assignment pattern `(NAME\s*=\s*)([^#\n]+)`
(django_manager.py line 231) at the head of `s`.  The pattern is not
anchored to a line start, so it also fires inside commented lines. -/
def matchSimpleAt (name s : List Char) : Option ReMatch :=
  match stripLit name s with
  | none => none
  | some t =>
    match t.dropWhile isPySpace with
    | '=' :: u =>
      match lastGoodK isSimpleValChar u (u.takeWhile isPySpace).length with
      | none => none
      | some k =>
        some ⟨name ++ t.takeWhile isPySpace ++ '=' :: u.take k,
          (u.drop k).takeWhile isSimpleValChar, (u.drop k).dropWhile isSimpleValChar⟩
    | _ => none

/-- Match of the commented-assignment pattern `(#\s*NAME\s*=\s*)([^#\n]+)`
(django_manager.py line 250) at the head of `s`.  Exact for names that do
not begin with a whitespace character (every use passes an identifier). -/
def matchCommentedAt (name s : List Char) : Option ReMatch :=
  match s with
  | '#' :: t =>
    match matchSimpleAt name (t.dropWhile isPySpace) with
    | none => none
    | some m => some ⟨'#' :: t.takeWhile isPySpace ++ m.g1, m.g2, m.rest⟩
  | _ => none

/-- Match of the dictionary-entry pattern `(['\"]?NAME['\"]?\s*:\s*)([^,}]+)`
(django_manager.py line 241) at the head of `s`.  Exact for names that do
not begin with a quote or whitespace (every use passes an identifier). -/
def isQuote (c : Char) : Bool :=
  c = '\'' || c = '"'

/-- The optional leading quote of the dictionary-entry pattern: consume it
greedily when the name follows; otherwise require the name directly. -/
def dictOpen (name s : List Char) : Option (List Char × List Char) :=
  match s with
  | c :: t =>
    if isQuote c then
      match stripLit name t with
      | some t2 => some ([c], t2)
      | none =>
        match stripLit name s with
        | some t2 => some ([], t2)
        | none => none
    else
      match stripLit name s with
      | some t2 => some ([], t2)
      | none => none
  | [] =>
    match stripLit name s with
    | some t2 => some ([], t2)
    | none => none

/-- The optional closing quote after the name in the dictionary-entry
pattern (consumed greedily when present). -/
def dictCloseQ (t : List Char) : List Char :=
  match t with
  | c :: _ => if isQuote c then [c] else []
  | [] => []

def matchDictAt (name s : List Char) : Option ReMatch :=
  match dictOpen name s with
  | none => none
  | some (openQ, t) =>
    match (t.drop (dictCloseQ t).length).dropWhile isPySpace with
    | ':' :: u =>
      match lastGoodK isDictValChar u (u.takeWhile isPySpace).length with
      | none => none
      | some k =>
        some ⟨openQ ++ name ++ dictCloseQ t
            ++ (t.drop (dictCloseQ t).length).takeWhile isPySpace ++ ':' :: u.take k,
          (u.drop k).takeWhile isDictValChar, (u.drop k).dropWhile isDictValChar⟩
    | _ => none

/-- `re.search`: the leftmost position at which the matcher fires, returned
as the text before the match together with the match. -/
def searchAt (mAt : List Char → Option ReMatch) : List Char → Option (List Char × ReMatch)
  | [] => (mAt []).map (fun m => ([], m))
  | c :: cs =>
    match mAt (c :: cs) with
    | some m => some ([], m)
    | none => (searchAt mAt cs).map (fun pm => (c :: pm.1, pm.2))

/-- Fuelled worker for `subAll`. -/
def subAllF (mAt : List Char → Option ReMatch) (repl : List Char) : Nat → List Char → List Char
  | 0, s => s
  | fuel + 1, s =>
    match searchAt mAt s with
    | none => s
    | some (p, m) => p ++ repl ++ subAllF mAt repl fuel m.rest

/-- `re.sub` with a literal replacement string: every non-overlapping,
leftmost-first match is replaced.  The fuel `s.length` suffices because
every match of the patterns above consumes at least one character. -/
def subAll (mAt : List Char → Option ReMatch) (repl s : List Char) : List Char :=
  subAllF mAt repl s.length s

/-- The string branch of the value serialization of `edit_settings`
(django_manager.py lines 217-219): `f"'{new_value}'"`. -/
def serializeStr (w : List Char) : List Char :=
  '\'' :: w ++ ['\'']

/-- The machine-added marker that `edit_settings` places before an appended
declaration: `"\n\n# Added by Django Manager\n"`. -/
def appendTag : List Char :=
  "\n\n# Added by Django Manager\n".toList

/-- Embedding of `DjangoManager.edit_settings` (django_manager.py lines
196-270), as the transformation it applies to the settings document.
`valueStr` is the already-serialized value text (the code's `value_str`,
lines 216-224; `serializeStr` embeds the string case).  The file write at
line 267 always happens, so the function totally returns the new text. -/
def edit_settings (name valueStr content : List Char) : List Char :=
  match searchAt (matchSimpleAt name) content with
  | some (_, m) => subAll (matchSimpleAt name) (m.g1 ++ valueStr) content
  | none =>
    match searchAt (matchDictAt name) content with
    | some (_, m) => subAll (matchDictAt name) (m.g1 ++ valueStr) content
    | none =>
      match searchAt (matchCommentedAt name) content with
      | some (_, m) =>
        subAll (matchCommentedAt name)
          (((m.g1.dropWhile (fun c => c = '#')).dropWhile isPySpace) ++ valueStr) content
      | none =>
        content ++ appendTag ++ name ++ ' ' :: '=' :: ' ' :: valueStr ++ ['\n']

example :
    edit_settings "SECRET_KEY".toList (serializeStr "new".toList)
      "# SECRET_KEY = 'old'".toList = "# SECRET_KEY = 'new'".toList := by decide

example :
    edit_settings "X".toList (serializeStr "v".toList)
      "# X = 1\nX = 2".toList = "# X = 'v'\nX = 'v'".toList := by decide

example :
    edit_settings "KEY".toList (serializeStr "v".toList)
      "KEY = 1\nSECRET_KEY = 2".toList = "KEY = 'v'\nSECRET_KEY = 'v'".toList := by decide

example :
    edit_settings "Z".toList (serializeStr "v".toList) "X = 1".toList
      = ("X = 1".toList ++ appendTag ++ "Z = 'v'\n".toList) := by decide

/-! ## Block-extent scanning and the compound editors -/

/-- The balanced-delimiter scan shared (textually duplicated) by
`edit_database_settings` (django_manager.py lines 320-328, braces) and
`edit_middleware_settings` (lines 432-440, brackets): walk the document
from index `i`, incrementing a signed counter on every `openC`, decrementing
on every `closeC`, and return `i + 1` for the position of the `closeC` that
brings the counter back to zero; `none` embeds the loop running off the end
of the document (the code's `end_pos == -1`). -/
def scanEndFrom (openC closeC : Char) : List Char → Int → Nat → Option Nat
  | [], _, _ => none
  | c :: cs, depth, i =>
    if c = openC then scanEndFrom openC closeC cs (depth + 1) (i + 1)
    else if c = closeC then
      if depth - 1 = 0 then some (i + 1)
      else scanEndFrom openC closeC cs (depth - 1) (i + 1)
    else scanEndFrom openC closeC cs depth (i + 1)

/-- Match, at the head of `s`, of the block-header pattern
`KEYWORD\s*=\s*` followed by the open delimiter (the code's
`re.search(r"DATABASES\s*=\s*{", ...)` resp. `r"MIDDLEWARE\s*=\s*\["`);
returns the length of the matched text. -/
def matchHeaderAt (kw : List Char) (openC : Char) (s : List Char) : Option Nat :=
  match stripLit kw s with
  | none => none
  | some t =>
    let w1 := t.takeWhile isPySpace
    match t.dropWhile isPySpace with
    | '=' :: u =>
      let w2 := u.takeWhile isPySpace
      match u.dropWhile isPySpace with
      | c :: _ =>
        if c = openC then some (kw.length + w1.length + 1 + w2.length + 1) else none
      | [] => none
    | _ => none

/-- `re.search` returning the start index of the leftmost match (the code's
`start_match.start()`). -/
def searchIdxFrom (mAt : List Char → Option Nat) : List Char → Nat → Option Nat
  | [], i =>
    match mAt [] with
    | some _ => some i
    | none => none
  | c :: cs, i =>
    match mAt (c :: cs) with
    | some _ => some i
    | none => searchIdxFrom mAt cs (i + 1)

/-- `str.find(ch, i)`: index of the first occurrence of `ch` at or after
index `i`, `none` for Python's `-1`. -/
def findCharFrom (ch : Char) (s : List Char) (i : Nat) : Option Nat :=
  searchIdxFrom
    (fun t => match t with
      | c :: _ => if c = ch then some 0 else none
      | [] => none)
    (s.drop i) i

/-- Shared body of the two textually identical implementations of
`edit_database_settings` (DjangoManager, django_manager.py lines 272-342,
and DatabasesHandler, databases_handler.py lines 87-157).  `keys` are the
keys of the `new_databases` mapping in insertion order, `formatted` is
`pformat(new_databases, indent=4)` (passed through opaquely: no claim
depends on its text), `content` is the text of the settings file.  The
first component is the text written back, `none` meaning the function
returned without writing. -/
def editDatabasesBody (keys : List (List Char)) (formatted content : List Char) :
    Option (List Char) × String :=
  if ¬ keys.contains "default".toList then
    (none, "Error: The 'default' database configuration is required")
  else
    match searchIdxFrom (matchHeaderAt "DATABASES".toList '{') content 0 with
    | none =>
      (some (content ++ appendTag ++ "DATABASES = ".toList ++ formatted ++ ['\n']),
        "DATABASES setting added successfully")
    | some startPos =>
      match findCharFrom '{' content startPos with
      | none => (none, "Error: Malformed DATABASES setting")
      | some fb =>
        match scanEndFrom '{' '}' (content.drop fb) 0 fb with
        | none => (none, "Error: Could not find the end of DATABASES definition")
        | some endPos =>
          (some (content.take startPos ++ "DATABASES = ".toList ++ formatted
            ++ content.drop endPos),
            "DATABASES setting updated successfully")

/-- Embedding of `DjangoManager.edit_database_settings` (django_manager.py
lines 272-342). -/
def edit_database_settings (keys : List (List Char)) (formatted content : List Char) :
    Option (List Char) × String :=
  editDatabasesBody keys formatted content

namespace DatabasesHandler

/-- Embedding of `DatabasesHandler.edit_database_settings`
(databases_handler.py lines 87-157), whose body is character-for-character
the same as the DjangoManager one apart from how the settings path is
looked up. -/
def edit_database_settings (keys : List (List Char)) (formatted content : List Char) :
    Option (List Char) × String :=
  Djanbee.editDatabasesBody keys formatted content

end DatabasesHandler

/-- Embedding of `DjangoManager.edit_middleware_settings`
(django_manager.py lines 388-454): identical control flow with the
`MIDDLEWARE` keyword and the bracket family, and no `default`-key guard. -/
def edit_middleware_settings (formatted content : List Char) :
    Option (List Char) × String :=
  match searchIdxFrom (matchHeaderAt "MIDDLEWARE".toList '[') content 0 with
  | none =>
    (some (content ++ appendTag ++ "MIDDLEWARE = ".toList ++ formatted ++ ['\n']),
      "MIDDLEWARE setting added successfully")
  | some startPos =>
    match findCharFrom '[' content startPos with
    | none => (none, "Error: Malformed MIDDLEWARE setting")
    | some fb =>
      match scanEndFrom '[' ']' (content.drop fb) 0 fb with
      | none => (none, "Error: Could not find the end of MIDDLEWARE definition")
      | some endPos =>
        (some (content.take startPos ++ "MIDDLEWARE = ".toList ++ formatted
          ++ content.drop endPos),
          "MIDDLEWARE setting updated successfully")

example :
    edit_database_settings ["default".toList] "\x7b\x7d".toList
      "X = 1\nDATABASES = \x7b\n 'default': \x7b'A': \x7b\x7d\x7d\n\x7d\nY = 2".toList
      = (some "X = 1\nDATABASES = \x7b\x7d\nY = 2".toList,
        "DATABASES setting updated successfully") := by decide

example :
    edit_database_settings ["default".toList] "\x7b\x7d".toList
      "DATABASES = \x7b'a': \x7b\x7d".toList
      = (none, "Error: Could not find the end of DATABASES definition") := by decide

example :
    edit_middleware_settings "[]".toList "MIDDLEWARE = [1, [2]".toList
      = (none, "Error: Could not find the end of MIDDLEWARE definition") := by decide

/-! ## Substring occurrence -/

/-- A Boolean matcher scanned over every suffix: `true` iff it fires at
some position (the truthiness of `re.search`). -/
def existsAt (m : List Char → Bool) : List Char → Bool
  | [] => m []
  | c :: cs => m (c :: cs) || existsAt m cs

/-- Literal fragment followed by a continuation matcher. -/
def litThen (lit : List Char) (next : List Char → Bool) (s : List Char) : Bool :=
  match stripLit lit s with
  | some t => next t
  | none => false

/-- `pat` occurs as a contiguous substring of `s` (Python's `pat in s`). -/
def containsSeq (pat s : List Char) : Bool :=
  existsAt (litThen pat (fun _ => true)) s

/-! ## The settings-file locator -/

/-- The marker identifiers that the marker-gated locator fallback
(`DatabaseManager.find_settings_file`, configure_database_manager.py lines
190-197) looks for in a candidate file's text. -/
def containsMarker (content : List Char) : Bool :=
  containsSeq "DJANGO_SETTINGS_MODULE".toList content
    || containsSeq "SECRET_KEY".toList content
    || containsSeq "INSTALLED_APPS".toList content

/-- Embedding of `DjangoManager.find_settings_file` (django_manager.py
lines 48-105).  The filesystem is modelled by its observations: `candidates`
is the ordered `possible_locations` list (manage.py-derived entry first when
present) paired with the result of `location.exists() and
location.is_file()`, and `rglobResults` is the ordered
`rglob("settings.py")` sequence, each file paired with its text.  The code's
fallback loop (lines 101-103) returns the first rglob hit without ever
reading it, which is why the file text is ignored. -/
def find_settings_file (candidates : List (String × Bool))
    (rglobResults : List (String × List Char)) : Option String :=
  match candidates.find? (fun pc => pc.2) with
  | some pc => some pc.1
  | none =>
    match rglobResults with
    | r :: _ => some r.1
    | [] => none

/-- Embedding of the recursive-glob fallback of
`DatabaseManager.find_settings_file` (configure_database_manager.py lines
184-201): of the first five glob results, return the first whose text
contains a marker identifier. -/
def databaseManagerFallback (rglobResults : List (String × List Char)) : Option String :=
  match (rglobResults.take 5).find? (fun r => containsMarker r.2) with
  | some r => some r.1
  | none => none

/-! ## The import manager -/

/-- `\s*` before a continuation: try every split of the leading whitespace
run (existence semantics of the embedded `re.search` calls). -/
def wsStar (next : List Char → Bool) : List Char → Bool
  | [] => next []
  | c :: cs => next (c :: cs) || (isPySpace c && wsStar next cs)

/-- `\s+` before a continuation. -/
def wsPlus (next : List Char → Bool) : List Char → Bool
  | [] => false
  | c :: cs => isPySpace c && wsStar next cs

/-- `.*` (no DOTALL: stops at a newline) before a continuation. -/
def dotStar (next : List Char → Bool) : List Char → Bool
  | [] => next []
  | c :: cs => next (c :: cs) || (!(c = '\n') && dotStar next cs)

/-- Embedding of `DjangoManager.is_library_imported` (django_manager.py
lines 495-530): some position of the document matches one of the four
patterns `import\s+LIB`, `from\s+LIB\s+import`, `import\s+.*,\s*LIB`,
or `import\s+LIB\s+as`. -/
def is_library_imported (lib content : List Char) : Bool :=
  existsAt (litThen "import".toList (wsPlus (litThen lib (fun _ => true)))) content
    || existsAt (litThen "from".toList
        (wsPlus (litThen lib (wsPlus (litThen "import".toList (fun _ => true)))))) content
    || existsAt (litThen "import".toList
        (wsPlus (dotStar (litThen [','] (wsStar (litThen lib (fun _ => true))))))) content
    || existsAt (litThen "import".toList
        (wsPlus (litThen lib (wsPlus (litThen "as".toList (fun _ => true)))))) content

/-- Python `"...".split("\n")`. -/
def splitNl : List Char → List (List Char)
  | [] => [[]]
  | c :: cs =>
    if c = '\n' then [] :: splitNl cs
    else
      match splitNl cs with
      | l :: ls => (c :: l) :: ls
      | [] => [[c]]

/-- Python `str.strip()` (whitespace from both ends). -/
def pyStrip (l : List Char) : List Char :=
  ((l.dropWhile isPySpace).reverse.dropWhile isPySpace).reverse

/-- The loop condition of `add_library_import` (django_manager.py lines
580-589): the stripped line is non-empty and starts with none of `#`,
`import`, `from`. -/
def isBodyLine (l : List Char) : Bool :=
  let t := pyStrip l
  !t.isEmpty && !(['#'].isPrefixOf t)
    && !("import".toList.isPrefixOf t) && !("from".toList.isPrefixOf t)

/-- Index of the first body line, if any. -/
def firstBodyIdx : List (List Char) → Option Nat
  | [] => none
  | l :: ls => if isBodyLine l then some 0 else (firstBodyIdx ls).map (fun i => i + 1)

/-- The insertion index computed by the loop of `add_library_import`:
`import_section_end` is set to the index of the first body line and the
loop breaks; if no line qualifies it keeps its initial value `0`. -/
def importSectionEnd (lines : List (List Char)) : Nat :=
  match firstBodyIdx lines with
  | some i => i
  | none => 0

/-- What to import, for the `from X import Y` form. -/
inductive ImportWhat where
  | one (s : List Char)
  | many (l : List (List Char))

/-- Render the code's `import_what_str` (lines 562-565). -/
def renderWhat : ImportWhat → List Char
  | .one s => s
  | .many l => List.intercalate ", ".toList l

/-- Embedding of `DjangoManager.add_library_import` (django_manager.py
lines 532-605).  First component: the text written back, `none` when the
function returns without writing (library already imported, or
`import_from` given without `import_what`). -/
def add_library_import (lib : List Char) (importFrom : Option (List Char))
    (importAs : Option (List Char)) (importWhat : Option ImportWhat)
    (content : List Char) : Option (List Char) × String :=
  if is_library_imported lib content then
    (none, "already imported")
  else
    let stmt? : Option (List Char) :=
      match importFrom with
      | some f =>
        match importWhat with
        | some w => some ("from ".toList ++ f ++ " import ".toList ++ renderWhat w)
        | none => none
      | none =>
        some ("import ".toList ++ lib
          ++ (match importAs with
              | some a => " as ".toList ++ a
              | none => []))
    match stmt? with
    | none => (none, "import_what must be provided when using import_from")
    | some stmt =>
      let lines := splitNl content
      let i := importSectionEnd lines
      (some (List.intercalate ['\n'] (lines.take i ++ stmt :: lines.drop i)),
        "Added import")

example :
    add_library_import "os".toList none none none "import sys\n\nX = 1\n".toList
      = (some "import sys\n\nimport os\nX = 1\n".toList, "Added import") := by decide

example :
    add_library_import "os".toList none none none "import sys\nimport re".toList
      = (some "import os\nimport sys\nimport re".toList, "Added import") := by decide

example : is_library_imported "os".toList "import sys, os\n".toList = true := by decide

example : is_library_imported "os".toList "import json\n".toList = false := by decide

/-! ## Lemmas about the matching primitives -/

theorem stripLit_eq : ∀ {p s t : List Char}, stripLit p s = some t → s = p ++ t := by
  intro p
  induction p with
  | nil =>
    intro s t h
    simp only [stripLit, Option.some.injEq] at h
    simp [h]
  | cons x xs ih =>
    intro s t h
    cases s with
    | nil => simp [stripLit] at h
    | cons c cs =>
      simp only [stripLit] at h
      split at h
      · next hxc =>
        subst hxc
        simpa using ih h
      · simp at h

theorem stripLit_self : ∀ (p t : List Char), stripLit p (p ++ t) = some t := by
  intro p
  induction p with
  | nil => intro t; rfl
  | cons x xs ih => intro t; simp [stripLit, ih]

theorem existsAt_head {m : List Char → Bool} {s : List Char} (h : m s = true) :
    existsAt m s = true := by
  cases s <;> simp [existsAt, h]

theorem containsSeq_of_split {pat : List Char} :
    ∀ (x : List Char) {y s : List Char}, s = x ++ (pat ++ y) → containsSeq pat s = true := by
  intro x
  induction x with
  | nil =>
    intro y s h
    subst h
    exact existsAt_head (by simp [litThen, stripLit_self])
  | cons c cs ih =>
    intro y s h
    subst h
    simp only [containsSeq, existsAt, List.cons_append]
    have := ih (y := y) (s := cs ++ (pat ++ y)) rfl
    simp only [containsSeq] at this
    simp [this]

theorem searchAt_nil {mAt : List Char → Option ReMatch} :
    searchAt mAt [] = (mAt []).map (fun m => ([], m)) := rfl

theorem searchAt_cons_of_some {mAt : List Char → Option ReMatch} {c : Char}
    {cs : List Char} {m : ReMatch} (h : mAt (c :: cs) = some m) :
    searchAt mAt (c :: cs) = some ([], m) := by
  conv_lhs => rw [searchAt]
  rw [h]

theorem searchAt_cons_of_none {mAt : List Char → Option ReMatch} {c : Char}
    {cs : List Char} (h : mAt (c :: cs) = none) :
    searchAt mAt (c :: cs) = (searchAt mAt cs).map (fun pm => (c :: pm.1, pm.2)) := by
  conv_lhs => rw [searchAt]
  rw [h]

theorem searchAt_some {mAt : List Char → Option ReMatch} :
    ∀ {s p : List Char} {m : ReMatch}, searchAt mAt s = some (p, m) →
      ∃ q, s = p ++ q ∧ mAt q = some m := by
  intro s
  induction s with
  | nil =>
    intro p m h
    rw [searchAt_nil] at h
    cases hm : mAt [] with
    | none => rw [hm] at h; simp at h
    | some m' =>
      rw [hm] at h
      simp only [Option.map_some', Option.some.injEq, Prod.mk.injEq] at h
      exact ⟨[], by simp [h.1.symm], by rw [hm, h.2]⟩
  | cons c cs ih =>
    intro p m h
    cases hm : mAt (c :: cs) with
    | some m' =>
      rw [searchAt_cons_of_some hm] at h
      simp only [Option.some.injEq, Prod.mk.injEq] at h
      exact ⟨c :: cs, by simp [h.1.symm], by rw [hm, h.2]⟩
    | none =>
      rw [searchAt_cons_of_none hm] at h
      cases hrec : searchAt mAt cs with
      | none => rw [hrec] at h; simp at h
      | some pm =>
        obtain ⟨p', m''⟩ := pm
        rw [hrec] at h
        simp only [Option.map_some', Option.some.injEq, Prod.mk.injEq] at h
        obtain ⟨q, hq1, hq2⟩ := ih hrec
        exact ⟨q, by simp [h.1.symm, hq1], by rw [hq2, h.2]⟩

theorem searchAt_none {mAt : List Char → Option ReMatch} :
    ∀ {s : List Char}, (∀ a b, s = a ++ b → mAt b = none) → searchAt mAt s = none := by
  intro s
  induction s with
  | nil =>
    intro h
    rw [searchAt_nil, h [] [] rfl]
    rfl
  | cons c cs ih =>
    intro h
    have h0 : mAt (c :: cs) = none := h [] (c :: cs) rfl
    have hrec : searchAt mAt cs = none :=
      ih (fun a b hab => h (c :: a) b (by simp [hab]))
    rw [searchAt_cons_of_none h0, hrec]
    rfl

theorem searchAt_append {mAt : List Char → Option ReMatch} :
    ∀ (pre : List Char) {suf : List Char},
      (∀ a b, pre = a ++ b → b ≠ [] → mAt (b ++ suf) = none) →
      searchAt mAt (pre ++ suf) =
        (searchAt mAt suf).map (fun pm => (pre ++ pm.1, pm.2)) := by
  intro pre
  induction pre with
  | nil =>
    intro suf _
    simp only [List.nil_append]
    cases h : searchAt mAt suf with
    | none => simp
    | some pm => cases pm; simp
  | cons c cs ih =>
    intro suf h
    have h0 : mAt (c :: (cs ++ suf)) = none := by
      have := h [] (c :: cs) rfl (by simp)
      simpa using this
    have hrec := ih (fun a b hab hb => h (c :: a) b (by simp [hab]) hb)
    rw [List.cons_append, searchAt_cons_of_none h0, hrec]
    cases hs : searchAt mAt suf with
    | none => simp
    | some pm => cases pm; simp

theorem subAllF_of_none {mAt : List Char → Option ReMatch} {repl s : List Char}
    (h : searchAt mAt s = none) : ∀ n, subAllF mAt repl n s = s := by
  intro n
  cases n with
  | zero => rfl
  | succ n => simp [subAllF, h]

theorem subAll_single {mAt : List Char → Option ReMatch} {repl s p : List Char}
    {m : ReMatch} (hs : searchAt mAt s = some (p, m))
    (hshape : s = p ++ m.g1 ++ m.g2 ++ m.rest) (hg1 : m.g1 ≠ [])
    (hr : searchAt mAt m.rest = none) :
    subAll mAt repl s = p ++ repl ++ m.rest := by
  have hs0 : s ≠ [] := by
    intro hnil
    rw [hnil] at hshape
    have := hshape.symm
    simp only [List.append_eq_nil] at this
    exact hg1 this.1.1.2
  obtain ⟨n, hn⟩ : ∃ n, s.length = n + 1 := by
    cases hl : s.length with
    | zero => exact absurd (List.length_eq_zero.mp hl) hs0
    | succ n => exact ⟨n, rfl⟩
  rw [subAll, hn]
  simp [subAllF, hs, subAllF_of_none hr n]

/-- Helpers for splitting `takeWhile`/`dropWhile` over an append whose left
part satisfies the predicate throughout. -/
theorem takeWhile_all_append {α} (p : α → Bool) :
    ∀ (l r : List α), (∀ x ∈ l, p x = true) →
      (l ++ r).takeWhile p = l ++ r.takeWhile p := by
  intro l
  induction l with
  | nil => intro r _; simp
  | cons x xs ih =>
    intro r h
    have hx : p x = true := h x (by simp)
    simp [List.takeWhile_cons, hx, ih r (fun y hy => h y (by simp [hy]))]

theorem dropWhile_all_append {α} (p : α → Bool) :
    ∀ (l r : List α), (∀ x ∈ l, p x = true) →
      (l ++ r).dropWhile p = r.dropWhile p := by
  intro l
  induction l with
  | nil => intro r _; simp
  | cons x xs ih =>
    intro r h
    have hx : p x = true := h x (by simp)
    simp [List.dropWhile_cons, hx, ih r (fun y hy => h y (by simp [hy]))]

/-! ## Shape of the three pattern matchers -/

theorem matchSimpleAt_shape {name s : List Char} {m : ReMatch}
    (h : matchSimpleAt name s = some m) :
    s = m.g1 ++ m.g2 ++ m.rest ∧ m.g1 ≠ [] ∧ ∃ t, s = name ++ t := by
  unfold matchSimpleAt at h
  split at h
  · simp at h
  · next t hst =>
    split at h
    · next u hdw =>
      split at h
      · simp at h
      · next k hk =>
        simp only [Option.some.injEq] at h
        subst h
        have hs : s = name ++ t := stripLit_eq hst
        have ht : t = t.takeWhile isPySpace ++ ('=' :: u) := by
          conv_lhs => rw [← List.takeWhile_append_dropWhile isPySpace t]
          rw [hdw]
        refine ⟨?_, by simp, ⟨t, hs⟩⟩
        rw [hs]
        simp only [List.append_assoc, List.cons_append]
        rw [List.takeWhile_append_dropWhile, List.take_append_drop]
        conv_lhs => rw [ht]
    · simp at h

theorem dictOpen_eq {name s : List Char} {q t : List Char}
    (h : dictOpen name s = some (q, t)) : s = q ++ name ++ t := by
  unfold dictOpen at h
  split at h
  · next c cs =>
    split at h
    · split at h
      · next t2 hst =>
        simp only [Option.some.injEq, Prod.mk.injEq] at h
        obtain ⟨rfl, rfl⟩ := h
        simp [stripLit_eq hst]
      · split at h
        · next t2 hst =>
          simp only [Option.some.injEq, Prod.mk.injEq] at h
          obtain ⟨rfl, rfl⟩ := h
          simpa using stripLit_eq hst
        · simp at h
    · split at h
      · next t2 hst =>
        simp only [Option.some.injEq, Prod.mk.injEq] at h
        obtain ⟨rfl, rfl⟩ := h
        simpa using stripLit_eq hst
      · simp at h
  · split at h
    · next t2 hst =>
      simp only [Option.some.injEq, Prod.mk.injEq] at h
      obtain ⟨rfl, rfl⟩ := h
      simpa using stripLit_eq hst
    · simp at h

theorem matchDictAt_occurs {name s : List Char} {m : ReMatch}
    (h : matchDictAt name s = some m) : ∃ x y, s = x ++ name ++ y := by
  unfold matchDictAt at h
  split at h
  · simp at h
  · next q t hopen =>
    exact ⟨q, t, dictOpen_eq hopen⟩

theorem matchCommentedAt_occurs {name s : List Char} {m : ReMatch}
    (h : matchCommentedAt name s = some m) : ∃ x y, s = x ++ name ++ y := by
  unfold matchCommentedAt at h
  split at h
  · next t =>
    split at h
    · simp at h
    · next m' hm =>
      obtain ⟨-, -, t2, ht2⟩ := matchSimpleAt_shape hm
      refine ⟨'#' :: t.takeWhile isPySpace, t2, ?_⟩
      have ht : t = t.takeWhile isPySpace ++ (name ++ t2) := by
        conv_lhs => rw [← List.takeWhile_append_dropWhile isPySpace t]
        rw [ht2]
      conv_lhs => rw [ht]
      simp
  · simp at h

/-! ## Branch selection in edit_settings -/

theorem searchSimple_none {name content : List Char}
    (h : containsSeq name content = false) :
    searchAt (matchSimpleAt name) content = none := by
  apply searchAt_none
  intro a b hab
  cases hm : matchSimpleAt name b with
  | none => rfl
  | some m =>
    exfalso
    obtain ⟨-, -, t, ht⟩ := matchSimpleAt_shape hm
    have hc : containsSeq name content = true :=
      containsSeq_of_split a (by rw [hab, ht])
    rw [h] at hc
    exact Bool.noConfusion hc

theorem searchDict_none {name content : List Char}
    (h : containsSeq name content = false) :
    searchAt (matchDictAt name) content = none := by
  apply searchAt_none
  intro a b hab
  cases hm : matchDictAt name b with
  | none => rfl
  | some m =>
    exfalso
    obtain ⟨x, y, hxy⟩ := matchDictAt_occurs hm
    have hc : containsSeq name content = true :=
      containsSeq_of_split (a ++ x) (y := y) (by rw [hab, hxy]; simp [List.append_assoc])
    rw [h] at hc
    exact Bool.noConfusion hc

theorem searchCommented_none {name content : List Char}
    (h : containsSeq name content = false) :
    searchAt (matchCommentedAt name) content = none := by
  apply searchAt_none
  intro a b hab
  cases hm : matchCommentedAt name b with
  | none => rfl
  | some m =>
    exfalso
    obtain ⟨x, y, hxy⟩ := matchCommentedAt_occurs hm
    have hc : containsSeq name content = true :=
      containsSeq_of_split (a ++ x) (y := y) (by rw [hab, hxy]; simp [List.append_assoc])
    rw [h] at hc
    exact Bool.noConfusion hc

/-- When the simple-assignment pattern has a (leftmost) match whose
remainder contains no further match, `edit_settings` rewrites exactly that
span. -/
theorem edit_settings_unique (v : List Char) {name content p : List Char} {m : ReMatch}
    (h1 : searchAt (matchSimpleAt name) content = some (p, m))
    (h2 : searchAt (matchSimpleAt name) m.rest = none) :
    edit_settings name v content = p ++ (m.g1 ++ v) ++ m.rest := by
  obtain ⟨q, hq, hmq⟩ := searchAt_some h1
  obtain ⟨hsh, hg1, -⟩ := matchSimpleAt_shape hmq
  have hshape : content = p ++ m.g1 ++ m.g2 ++ m.rest := by
    rw [hq, hsh]; simp [List.append_assoc]
  unfold edit_settings
  rw [h1]
  show subAll (matchSimpleAt name) (m.g1 ++ v) content = _
  exact subAll_single h1 hshape hg1 h2

/-! ## Claims C1, C2, C3 -/

/-- Claim C1 (code bug): on a document whose only occurrence of the name is
the commented assignment `# SECRET_KEY = 'old'`, `edit_settings` is claimed
to produce an active, uncommented `SECRET_KEY = 'new'`.  The code instead
leaves the line commented: the unanchored simple-assignment regex (line
231) matches inside the commented line, so the commented-assignment branch
(lines 249-259), whose own comments promise to uncomment, is never reached,
and the `# ` before the match is preserved by `re.sub`. -/
theorem secret_key_stays_commented :
    edit_settings "SECRET_KEY".toList (serializeStr "new".toList)
        "# SECRET_KEY = 'old'".toList
      = "# SECRET_KEY = 'new'".toList
    ∧ edit_settings "SECRET_KEY".toList (serializeStr "new".toList)
        "# SECRET_KEY = 'old'".toList
      ≠ "SECRET_KEY = 'new'".toList := by
  constructor
  · decide
  · decide

/-- Claim C2 (counterexample): with a commented `# X = 1` at a lower offset
and an active `X = 2` later, the claim says exactly one occurrence — the
active simple assignment — is mutated and every other occurrence is left
textually unchanged.  In fact `re.sub` replaces every match of the
unanchored simple pattern: the commented occurrence is rewritten as well
(and the first, commented match supplies the replacement prefix). -/
theorem edit_settings_mutates_all_occurrences_cex :
    edit_settings "X".toList (serializeStr "v".toList) "# X = 1\nX = 2".toList
      = "# X = 'v'\nX = 'v'".toList
    ∧ containsSeq "# X = 1".toList
        (edit_settings "X".toList (serializeStr "v".toList) "# X = 1\nX = 2".toList)
      = false := by
  constructor
  · decide
  · decide

/-- Claim C2 (amended): a single `edit_settings` call replaces every
non-overlapping occurrence of the highest-precedence pattern that matches
anywhere in the document (the unanchored simple-assignment pattern also
fires inside commented lines), each with the first match's captured prefix
followed by the new value; when that pattern matches exactly once, exactly
that occurrence is mutated and everything else is unchanged. -/
theorem edit_settings_unique_simple_match (name v content p : List Char) (m : ReMatch)
    (h1 : searchAt (matchSimpleAt name) content = some (p, m))
    (h2 : searchAt (matchSimpleAt name) m.rest = none) :
    edit_settings name v content = p ++ m.g1 ++ v ++ m.rest := by
  rw [edit_settings_unique v h1 h2]
  simp [List.append_assoc]

theorem edit_settings_unique_simple_match_witness :
    edit_settings "X".toList "'v'".toList "X = 1\nY = 2".toList
      = [] ++ "X = ".toList ++ "'v'".toList ++ "\nY = 2".toList :=
  edit_settings_unique_simple_match "X".toList "'v'".toList "X = 1\nY = 2".toList []
    ⟨"X = ".toList, "1".toList, "\nY = 2".toList⟩ (by decide) (by decide)

/-- Claim C3 (counterexample): mutating declaration `A = KEY` in a document
that also declares `B = SECRET_KEY` rewrites `B`'s declaration too, because
the unanchored pattern `KEY\s*=\s*...` also matches inside
`SECRET_KEY = 2` and `re.sub` replaces all matches. -/
theorem edit_settings_touches_other_declaration_cex :
    edit_settings "KEY".toList (serializeStr "v".toList)
        "KEY = 1\nSECRET_KEY = 2".toList
      = "KEY = 'v'\nSECRET_KEY = 'v'".toList
    ∧ containsSeq "SECRET_KEY = 2".toList
        (edit_settings "KEY".toList (serializeStr "v".toList)
          "KEY = 1\nSECRET_KEY = 2".toList)
      = false := by
  constructor
  · decide
  · decide

/-- Claim C3 (amended): mutating `A` preserves, byte for byte, all text
outside the replaced spans of `A`'s winning pattern; when that pattern
matches exactly once, every byte before the matched value and every byte
after it — in particular any declaration `B` that does not itself contain a
match of `A`'s pattern — is unchanged. -/
theorem edit_settings_frame_outside_match (name v content p : List Char) (m : ReMatch)
    (h1 : searchAt (matchSimpleAt name) content = some (p, m))
    (h2 : searchAt (matchSimpleAt name) m.rest = none) :
    (edit_settings name v content).take (p.length + m.g1.length)
        = content.take (p.length + m.g1.length)
    ∧ (edit_settings name v content).drop (p.length + m.g1.length + v.length)
        = content.drop (p.length + m.g1.length + m.g2.length) := by
  obtain ⟨q, hq, hmq⟩ := searchAt_some h1
  obtain ⟨hsh, -, -⟩ := matchSimpleAt_shape hmq
  have hcontent : content = (p ++ m.g1) ++ (m.g2 ++ m.rest) := by
    rw [hq, hsh]; simp [List.append_assoc]
  have hres : edit_settings name v content = (p ++ m.g1) ++ (v ++ m.rest) := by
    rw [edit_settings_unique v h1 h2]; simp [List.append_assoc]
  constructor
  · rw [hres]
    conv_rhs => rw [hcontent]
    rw [show p.length + m.g1.length = (p ++ m.g1).length by simp]
    rw [List.take_left, List.take_left]
  · rw [hres]
    conv_rhs => rw [hcontent]
    have hl : p.length + m.g1.length + v.length = ((p ++ m.g1) ++ v).length := by
      simp [Nat.add_assoc]
    have hr : p.length + m.g1.length + m.g2.length = ((p ++ m.g1) ++ m.g2).length := by
      simp [Nat.add_assoc]
    rw [hl, hr]
    rw [show (p ++ m.g1) ++ (v ++ m.rest) = ((p ++ m.g1) ++ v) ++ m.rest by
      simp [List.append_assoc]]
    rw [show (p ++ m.g1) ++ (m.g2 ++ m.rest) = ((p ++ m.g1) ++ m.g2) ++ m.rest by
      simp [List.append_assoc]]
    rw [List.drop_left, List.drop_left]

theorem edit_settings_frame_outside_match_witness :
    (edit_settings "A".toList "'w'".toList "A = 1\nB = 2".toList).take
        (List.length ([] : List Char) + "A = ".toList.length)
      = ("A = 1\nB = 2".toList).take (List.length ([] : List Char) + "A = ".toList.length)
    ∧ (edit_settings "A".toList "'w'".toList "A = 1\nB = 2".toList).drop
        (List.length ([] : List Char) + "A = ".toList.length + "'w'".toList.length)
      = ("A = 1\nB = 2".toList).drop
        (List.length ([] : List Char) + "A = ".toList.length + "1".toList.length) :=
  edit_settings_frame_outside_match "A".toList "'w'".toList "A = 1\nB = 2".toList []
    ⟨"A = ".toList, "1".toList, "\nB = 2".toList⟩ (by decide) (by decide)

/-! ## Balanced-delimiter scanning: claims C4 and C5 -/

/-- Signed balance of one delimiter family over a text: `+1` per open
delimiter, `-1` per close delimiter (the other family and all other
characters are ignored, as in the code's counters). -/
def delta (o c : Char) : List Char → Int
  | [] => 0
  | x :: xs => (if x = o then (1 : Int) else if x = c then -1 else 0) + delta o c xs

/-- Decidable Dyck condition relative to a starting balance `d`: walking
`s`, the running balance `d + delta` never becomes negative. -/
def dyckPreFrom (o c : Char) : List Char → Int → Bool
  | [], _ => true
  | x :: xs, d =>
    let d2 := d + (if x = o then (1 : Int) else if x = c then -1 else 0)
    decide (0 ≤ d2) && dyckPreFrom o c xs d2

/-- Every prefix of `s` has nonnegative balance. -/
def dyckPre (o c : Char) (s : List Char) : Bool :=
  dyckPreFrom o c s 0

theorem delta_append (o c : Char) :
    ∀ (a b : List Char), delta o c (a ++ b) = delta o c a + delta o c b := by
  intro a
  induction a with
  | nil => intro b; simp [delta]
  | cons x xs ih =>
    intro b
    have hc : (x :: xs) ++ b = x :: (xs ++ b) := rfl
    rw [hc, delta, delta, ih]
    omega

theorem dyckPreFrom_prefix (o c : Char) :
    ∀ (a b : List Char) (d : Int), 0 ≤ d → dyckPreFrom o c (a ++ b) d = true →
      0 ≤ d + delta o c a := by
  intro a
  induction a with
  | nil => intro b d hd _; simpa [delta] using hd
  | cons x xs ih =>
    intro b d hd h
    simp only [List.cons_append, dyckPreFrom, Bool.and_eq_true, decide_eq_true_eq] at h
    have := ih b (d + (if x = o then (1 : Int) else if x = c then -1 else 0)) h.1 h.2
    simp only [delta]
    omega

theorem scanEndFrom_cons (o c x : Char) (xs : List Char) (d : Int) (i : Nat) :
    scanEndFrom o c (x :: xs) d i =
      if x = o then scanEndFrom o c xs (d + 1) (i + 1)
      else if x = c then
        if d - 1 = 0 then some (i + 1) else scanEndFrom o c xs (d - 1) (i + 1)
      else scanEndFrom o c xs d (i + 1) := rfl

/-- Scanning a segment whose delimiters never bring the running balance
down to zero at a close delimiter just adds the segment's balance and
length. -/
theorem scan_through (o c : Char) :
    ∀ (inner rest : List Char) (d : Int) (i : Nat),
      (∀ a x b, inner = a ++ x :: b → x = c → d + delta o c a - 1 ≠ 0) →
      scanEndFrom o c (inner ++ rest) d i
        = scanEndFrom o c rest (d + delta o c inner) (i + inner.length) := by
  intro inner
  induction inner with
  | nil =>
    intro rest d i _
    simp [delta]
  | cons x xs ih =>
    intro rest d i h
    rw [List.cons_append, scanEndFrom_cons]
    by_cases hxo : x = o
    · rw [if_pos hxo]
      have hcond : ∀ a y b, xs = a ++ y :: b → y = c →
          (d + 1) + delta o c a - 1 ≠ 0 := by
        intro a y b hab hyc
        have hh := h (x :: a) y b (by rw [hab]; rfl) hyc
        simp only [delta, hxo, if_pos] at hh
        omega
      rw [ih rest (d + 1) (i + 1) hcond]
      have e1 : (d + 1) + delta o c xs = d + delta o c (x :: xs) := by
        simp only [delta, hxo, if_pos]
        omega
      have e2 : (i + 1) + xs.length = i + (x :: xs).length := by
        simp only [List.length_cons]
        omega
      rw [e1, e2]
    · by_cases hxc : x = c
      · rw [if_neg hxo, if_pos hxc]
        have hd : ¬ (d - 1 = 0) := by
          have hh := h [] x xs (by simp) hxc
          simp only [delta] at hh
          omega
        rw [if_neg hd]
        have hcond : ∀ a y b, xs = a ++ y :: b → y = c →
            (d - 1) + delta o c a - 1 ≠ 0 := by
          intro a y b hab hyc
          have hh := h (x :: a) y b (by rw [hab]; rfl) hyc
          simp only [delta, if_neg hxo, if_pos hxc] at hh
          omega
        rw [ih rest (d - 1) (i + 1) hcond]
        have e1 : (d - 1) + delta o c xs = d + delta o c (x :: xs) := by
          simp only [delta, if_neg hxo, if_pos hxc]
          omega
        have e2 : (i + 1) + xs.length = i + (x :: xs).length := by
          simp only [List.length_cons]
          omega
        rw [e1, e2]
      · rw [if_neg hxo, if_neg hxc]
        have hcond : ∀ a y b, xs = a ++ y :: b → y = c →
            d + delta o c a - 1 ≠ 0 := by
          intro a y b hab hyc
          have hh := h (x :: a) y b (by rw [hab]; rfl) hyc
          simp only [delta, if_neg hxo, if_neg hxc] at hh
          omega
        rw [ih rest d (i + 1) hcond]
        have e1 : d + delta o c xs = d + delta o c (x :: xs) := by
          simp only [delta, if_neg hxo, if_neg hxc]
          omega
        have e2 : (i + 1) + xs.length = i + (x :: xs).length := by
          simp only [List.length_cons]
          omega
        rw [e1, e2]

/-- The balanced-scan property, generic in the delimiter family. -/
theorem scan_balanced (o c : Char) (hne : o ≠ c) (inner rest : List Char) (i : Nat)
    (hpre : dyckPre o c inner = true) (hbal : delta o c inner = 0) :
    scanEndFrom o c (o :: inner ++ (c :: rest)) 0 i = some (i + inner.length + 2) := by
  rw [List.cons_append, scanEndFrom_cons, if_pos rfl]
  have hcond : ∀ a x b, inner = a ++ x :: b → x = c →
      ((0 : Int) + 1) + delta o c a - 1 ≠ 0 := by
    intro a x b hab hxc
    have hxo : x ≠ o := by
      rw [hxc]
      exact fun hco => hne hco.symm
    have hdp : dyckPreFrom o c ((a ++ [x]) ++ b) 0 = true := by
      rw [show (a ++ [x]) ++ b = a ++ x :: b by simp]
      rw [← hab]
      exact hpre
    have hp : (0 : Int) ≤ 0 + delta o c (a ++ [x]) :=
      dyckPreFrom_prefix o c (a ++ [x]) b 0 le_rfl hdp
    have hx : delta o c (a ++ [x]) = delta o c a - 1 := by
      rw [delta_append]
      simp only [delta, if_neg hxo, if_pos hxc]
      omega
    omega
  rw [scan_through o c inner (c :: rest) ((0 : Int) + 1) (i + 1) hcond]
  rw [scanEndFrom_cons]
  have hco : ¬ (c = o) := fun hco => hne hco.symm
  rw [if_neg hco, if_pos rfl, hbal]
  rw [if_pos (by omega)]
  simp only [Option.some.injEq]
  omega

/-- Claim C4: for every `DATABASES = {...}` block whose braces are balanced
(Dyck condition, any nesting depth — in particular depth 5 and beyond), the
balanced-delimiter scan of `edit_database_settings` returns exactly the
position of the character immediately after the outermost closing brace
(depth incremented on every open, decremented on every close, stopping at
zero); and symmetrically the bracket scan of `edit_middleware_settings`
over `MIDDLEWARE = [...]`. -/
theorem block_scan_end_offset :
    (∀ (inner rest : List Char) (i : Nat), dyckPre '{' '}' inner = true →
        delta '{' '}' inner = 0 →
        scanEndFrom '{' '}' ('{' :: inner ++ ('}' :: rest)) 0 i
          = some (i + inner.length + 2))
    ∧ (∀ (inner rest : List Char) (i : Nat), dyckPre '[' ']' inner = true →
        delta '[' ']' inner = 0 →
        scanEndFrom '[' ']' ('[' :: inner ++ (']' :: rest)) 0 i
          = some (i + inner.length + 2)) :=
  ⟨fun inner rest i h1 h2 => scan_balanced '{' '}' (by decide) inner rest i h1 h2,
   fun inner rest i h1 h2 => scan_balanced '[' ']' (by decide) inner rest i h1 h2⟩

theorem block_scan_end_offset_witness :
    scanEndFrom '{' '}' ('{' :: "a{b{c{d{e}f}g}h}i".toList ++ ('}' :: " \nX = 1".toList)) 0 0
      = some (0 + ("a{b{c{d{e}f}g}h}i".toList).length + 2)
    ∧ scanEndFrom '[' ']' ('[' :: "a[b[c[d[e]f]g]h]i".toList ++ (']' :: " \nY".toList)) 0 0
      = some (0 + ("a[b[c[d[e]f]g]h]i".toList).length + 2) :=
  ⟨block_scan_end_offset.1 _ _ _ (by decide) (by decide),
   block_scan_end_offset.2 _ _ _ (by decide) (by decide)⟩

/-- Claim C5: when the balanced-delimiter scan reaches end-of-document
before the depth counter returns to zero, `edit_database_settings` and
`edit_middleware_settings` return a failure outcome with an error message
and never write the settings file (the first component `none` embeds the
return before any `write_text` call). -/
theorem malformed_block_not_written :
    (∀ (keys : List (List Char)) (fmt content : List Char) (s0 fb : Nat),
        keys.contains "default".toList = true →
        searchIdxFrom (matchHeaderAt "DATABASES".toList '{') content 0 = some s0 →
        findCharFrom '{' content s0 = some fb →
        scanEndFrom '{' '}' (content.drop fb) 0 fb = none →
        edit_database_settings keys fmt content
          = (none, "Error: Could not find the end of DATABASES definition"))
    ∧ (∀ (fmt content : List Char) (s0 fb : Nat),
        searchIdxFrom (matchHeaderAt "MIDDLEWARE".toList '[') content 0 = some s0 →
        findCharFrom '[' content s0 = some fb →
        scanEndFrom '[' ']' (content.drop fb) 0 fb = none →
        edit_middleware_settings fmt content
          = (none, "Error: Could not find the end of MIDDLEWARE definition")) := by
  constructor
  · intro keys fmt content s0 fb hk hh hfb hscan
    simp at hk hh hfb hscan
    simp [edit_database_settings, editDatabasesBody, hk, hh, hfb, hscan]
  · intro fmt content s0 fb hh hfb hscan
    simp at hh hfb hscan
    simp [edit_middleware_settings, hh, hfb, hscan]

theorem malformed_block_not_written_witness :
    edit_database_settings ["default".toList] "\x7b\x7d".toList "DATABASES = \x7b'a': \x7b\x7d".toList
      = (none, "Error: Could not find the end of DATABASES definition")
    ∧ edit_middleware_settings "[]".toList "MIDDLEWARE = [1, [2]".toList
      = (none, "Error: Could not find the end of MIDDLEWARE definition") :=
  ⟨malformed_block_not_written.1 ["default".toList] "\x7b\x7d".toList
      "DATABASES = \x7b'a': \x7b\x7d".toList 0 12 (by decide) (by decide) (by decide) (by decide),
   malformed_block_not_written.2 "[]".toList "MIDDLEWARE = [1, [2]".toList 0 13
      (by decide) (by decide) (by decide)⟩

/-! ## Claim C8: the settings-file locator fallback -/

/-- Claim C8 (counterexample): with no conventional candidate present, the
recursive-glob fallback of `DjangoManager.find_settings_file` (lines
101-103) returns the first `settings.py` found even though its content
contains no marker identifier — the claimed marker gate does not exist in
this locator. -/
theorem locator_returns_markerless_file_cex :
    find_settings_file [("proj/proj/settings.py", false)]
        [("proj/app/settings.py", "x = 1".toList)]
      = some "proj/app/settings.py"
    ∧ containsMarker "x = 1".toList = false := by
  exact ⟨rfl, by decide⟩

/-- Claim C8 (amended): `DjangoManager.find_settings_file` has no marker
gate: when no conventional candidate exists, it returns the first rglob
result unconditionally, marker or not.  The marker-gated acceptance the
spec describes lives in `DatabaseManager.find_settings_file`
(configure_database_manager.py), whose fallback indeed never returns a
file whose content lacks every marker. -/
theorem locator_fallback_marker_behavior :
    (∀ (cands : List (String × Bool)) (p : String) (content : List Char)
        (rest : List (String × List Char)),
        (∀ e ∈ cands, e.2 = false) → containsMarker content = false →
        find_settings_file cands ((p, content) :: rest) = some p)
    ∧ (∀ (results : List (String × List Char)) (r : String),
        databaseManagerFallback results = some r →
        ∃ e ∈ results.take 5, containsMarker e.2 = true ∧ r = e.1) := by
  constructor
  · intro cands p content rest hc _
    unfold find_settings_file
    have hnone : cands.find? (fun pc => pc.2) = none :=
      List.find?_eq_none.mpr (fun x hx => by simp [hc x hx])
    rw [hnone]
  · intro results r h
    unfold databaseManagerFallback at h
    cases hf : (results.take 5).find? (fun e => containsMarker e.2) with
    | none => rw [hf] at h; exact absurd h (by simp)
    | some e =>
      rw [hf] at h
      simp only [Option.some.injEq] at h
      exact ⟨e, List.mem_of_find?_eq_some hf,
        by simpa using List.find?_some hf, h.symm⟩

theorem locator_fallback_marker_behavior_witness :
    find_settings_file [("r/settings.py", false)]
        [("a/settings.py", "x = 1".toList), ("b/settings.py", "SECRET_KEY = 1".toList)]
      = some "a/settings.py" :=
  locator_fallback_marker_behavior.1 [("r/settings.py", false)] "a/settings.py"
    "x = 1".toList [("b/settings.py", "SECRET_KEY = 1".toList)]
    (by intro e he; simp at he; simp [he]) (by decide)

/-! ## Claim C10: the default-key guard of the database editors -/

/-- Claim C10: for every `new_databases` mapping without the key
`'default'`, both implementations of `edit_database_settings` return a
failure message before touching the settings file: the result is the same
for every file content, and nothing is written. -/
theorem missing_default_key_fails_before_io (keys : List (List Char))
    (fmt content : List Char) (h : keys.contains "default".toList = false) :
    edit_database_settings keys fmt content
      = (none, "Error: The 'default' database configuration is required")
    ∧ DatabasesHandler.edit_database_settings keys fmt content
      = (none, "Error: The 'default' database configuration is required") := by
  simp at h
  refine ⟨?_, ?_⟩ <;>
    simp [edit_database_settings, DatabasesHandler.edit_database_settings,
      editDatabasesBody, h]

theorem missing_default_key_fails_before_io_witness :
    edit_database_settings ["x".toList] "\x7b\x7d".toList "DATABASES = {}".toList
      = (none, "Error: The 'default' database configuration is required")
    ∧ DatabasesHandler.edit_database_settings ["x".toList] "\x7b\x7d".toList
        "DATABASES = {}".toList
      = (none, "Error: The 'default' database configuration is required") :=
  missing_default_key_fails_before_io ["x".toList] "\x7b\x7d".toList
    "DATABASES = {}".toList (by decide)

/-! ## Claim C9: import insertion point -/

theorem firstBodyIdx_some_spec :
    ∀ (ls : List (List Char)) (i : Nat), firstBodyIdx ls = some i →
      (∃ l, ls[i]? = some l ∧ isBodyLine l = true)
      ∧ (∀ j, j < i → ∀ l, ls[j]? = some l → isBodyLine l = false) := by
  intro ls
  induction ls with
  | nil => intro i h; simp [firstBodyIdx] at h
  | cons x xs ih =>
    intro i h
    unfold firstBodyIdx at h
    by_cases hx : isBodyLine x = true
    · rw [if_pos hx] at h
      simp only [Option.some.injEq] at h
      subst h
      exact ⟨⟨x, by simp, hx⟩, fun j hj => by omega⟩
    · rw [if_neg hx] at h
      cases hrec : firstBodyIdx xs with
      | none => rw [hrec] at h; simp at h
      | some i' =>
        rw [hrec] at h
        simp only [Option.map_some', Option.some.injEq] at h
        subst h
        obtain ⟨⟨l, hl, hpl⟩, hbefore⟩ := ih i' hrec
        refine ⟨⟨l, by simpa using hl, hpl⟩, ?_⟩
        intro j hj l' hl'
        cases j with
        | zero =>
          simp only [List.getElem?_cons_zero, Option.some.injEq] at hl'
          subst hl'
          simpa using hx
        | succ j' =>
          simp only [List.getElem?_cons_succ] at hl'
          exact hbefore j' (by omega) l' hl'

theorem firstBodyIdx_none_spec :
    ∀ (ls : List (List Char)), firstBodyIdx ls = none →
      ∀ (j : Nat) (l : List Char), ls[j]? = some l → isBodyLine l = false := by
  intro ls
  induction ls with
  | nil => intro _ j l hl; simp at hl
  | cons x xs ih =>
    intro h j l hl
    unfold firstBodyIdx at h
    by_cases hx : isBodyLine x = true
    · rw [if_pos hx] at h; simp at h
    · rw [if_neg hx] at h
      cases j with
      | zero =>
        simp only [List.getElem?_cons_zero, Option.some.injEq] at hl
        subst hl
        simpa using hx
      | succ j' =>
        simp only [List.getElem?_cons_succ] at hl
        cases hrec : firstBodyIdx xs with
        | none => exact ih hrec j' l hl
        | some i' => rw [hrec] at h; simp at h

/-- Claim C9: when the library is not yet imported, `add_library_import`
inserts the plain import statement at line index `importSectionEnd lines`,
and that index is characterized exactly as the claim states: it is the
first line that is neither blank, nor a comment, nor an import statement
(the code's line test: stripped line non-empty and starting with none of
`#`, `import`, `from`), and it is index 0 when no line of the document
qualifies — including the document all of whose lines are blank, comments
or imports. -/
theorem import_inserted_before_first_body_line (lib content : List Char)
    (h : is_library_imported lib content = false) :
    add_library_import lib none none none content
      = (some (List.intercalate ['\n']
          ((splitNl content).take (importSectionEnd (splitNl content))
            ++ ("import ".toList ++ lib)
              :: (splitNl content).drop (importSectionEnd (splitNl content)))),
        "Added import")
    ∧ (∀ j, j < importSectionEnd (splitNl content) →
        ∀ l, (splitNl content)[j]? = some l → isBodyLine l = false)
    ∧ ((∃ i, firstBodyIdx (splitNl content) = some i) →
        ∃ l, (splitNl content)[importSectionEnd (splitNl content)]? = some l
          ∧ isBodyLine l = true)
    ∧ (firstBodyIdx (splitNl content) = none →
        importSectionEnd (splitNl content) = 0) := by
  refine ⟨?_, ?_, ?_, ?_⟩
  · simp [add_library_import, h]
  · intro j hj l hl
    unfold importSectionEnd at hj
    cases hf : firstBodyIdx (splitNl content) with
    | none => rw [hf] at hj; simp at hj
    | some i =>
      rw [hf] at hj
      exact (firstBodyIdx_some_spec (splitNl content) i hf).2 j hj l hl
  · intro hex
    obtain ⟨i, hf⟩ := hex
    unfold importSectionEnd
    rw [hf]
    obtain ⟨⟨l, hl, hpl⟩, -⟩ := firstBodyIdx_some_spec (splitNl content) i hf
    exact ⟨l, hl, hpl⟩
  · intro hf
    unfold importSectionEnd
    rw [hf]

theorem import_inserted_before_first_body_line_witness :
    add_library_import "os".toList none none none "import sys\n\nX = 1\n".toList
      = (some (List.intercalate ['\n']
          ((splitNl "import sys\n\nX = 1\n".toList).take
              (importSectionEnd (splitNl "import sys\n\nX = 1\n".toList))
            ++ ("import ".toList ++ "os".toList)
              :: (splitNl "import sys\n\nX = 1\n".toList).drop
                (importSectionEnd (splitNl "import sys\n\nX = 1\n".toList)))),
        "Added import") :=
  (import_inserted_before_first_body_line "os".toList "import sys\n\nX = 1\n".toList
    (by decide)).1

/-! ## Claims C6 and C7: the append branch and idempotence over it -/

/-- Characters of a Django-style setting name (the repository only ever
passes upper-case identifiers such as `SECRET_KEY`, `ALLOWED_HOSTS`,
`DEBUG`, `STATIC_ROOT`). -/
def isIdentChar (c : Char) : Bool :=
  c.isUpper || c.isDigit || c = '_'

theorem stripLit_cons (p : Char) (ps : List Char) (c : Char) (cs : List Char) :
    stripLit (p :: ps) (c :: cs) = if p = c then stripLit ps cs else none := rfl

/-- Any successful simple-assignment match begins with the literal name and
reaches an `=` after the whitespace run. -/
theorem matchSimpleAt_some_decomp {name s : List Char} {m : ReMatch}
    (h : matchSimpleAt name s = some m) :
    ∃ t u, stripLit name s = some t ∧ t.dropWhile isPySpace = '=' :: u := by
  unfold matchSimpleAt at h
  split at h
  · simp at h
  · next t hst =>
    split at h
    · next u hdw => exact ⟨t, u, hst, hdw⟩
    · simp at h

/-- No simple-assignment match can start at a character that cannot begin
the name. -/
theorem matchSimpleAt_cons_none {name : List Char} {x : Char} {s : List Char}
    (hname : name ≠ []) (hid : ∀ c ∈ name, isIdentChar c = true)
    (hx : isIdentChar x = false) : matchSimpleAt name (x :: s) = none := by
  cases hm : matchSimpleAt name (x :: s) with
  | none => rfl
  | some m =>
    exfalso
    obtain ⟨t, u, hst, -⟩ := matchSimpleAt_some_decomp hm
    cases name with
    | nil => exact hname rfl
    | cons n0 ns =>
      rw [stripLit_cons] at hst
      by_cases hn0 : n0 = x
      · have := hid n0 (by simp)
        rw [hn0, hx] at this
        exact Bool.noConfusion this
      · rw [if_neg hn0] at hst
        exact Option.noConfusion hst

/-- No simple-assignment match can start at a position whose second
character is neither an identifier character, whitespace, nor `=` — the
name (identifier characters only) must stop inside the first character,
and the pattern then fails to reach an `=`. -/
theorem matchSimpleAt_cons2_none {name : List Char} {x y : Char} {s : List Char}
    (hname : name ≠ []) (hid : ∀ c ∈ name, isIdentChar c = true)
    (hyid : isIdentChar y = false) (hyws : isPySpace y = false) (hyeq : y ≠ '=') :
    matchSimpleAt name (x :: y :: s) = none := by
  cases hm : matchSimpleAt name (x :: y :: s) with
  | none => rfl
  | some m =>
    exfalso
    obtain ⟨t, u, hst, hdw⟩ := matchSimpleAt_some_decomp hm
    cases name with
    | nil => exact hname rfl
    | cons n0 ns =>
      rw [stripLit_cons] at hst
      by_cases hn0 : n0 = x
      · rw [if_pos hn0] at hst
        cases ns with
        | nil =>
          simp only [stripLit, Option.some.injEq] at hst
          subst hst
          rw [List.dropWhile_cons, if_neg (by simp [hyws])] at hdw
          have : y = '=' := by
            have := List.head_eq_of_cons_eq hdw
            exact this
          exact hyeq this
        | cons n1 ns2 =>
          rw [stripLit_cons] at hst
          by_cases hn1 : n1 = y
          · have := hid n1 (by simp)
            rw [hn1, hyid] at this
            exact Bool.noConfusion this
          · rw [if_neg hn1] at hst
            exact Option.noConfusion hst
      · rw [if_neg hn0] at hst
        exact Option.noConfusion hst

/-- The shape invariant of the machine-added marker text: every suffix
either starts with a non-identifier character, or starts with an
identifier character followed by a character that can neither continue the
name, be skipped as whitespace, nor be the `=`. -/
def tagOk : List Char → Bool
  | [] => true
  | x :: rest =>
    (match rest with
     | [] => !(isIdentChar x)
     | y :: _ =>
       !(isIdentChar x) || (!(isIdentChar y) && !(isPySpace y) && !(y = '=')))
    && tagOk rest

/-- Inside a text satisfying `tagOk` no simple-assignment match for an
identifier name can start, whatever follows the text. -/
theorem tagOk_no_match {name : List Char} (hname : name ≠ [])
    (hid : ∀ c ∈ name, isIdentChar c = true) (suf : List Char) :
    ∀ (mk : List Char), tagOk mk = true →
      ∀ a b, mk = a ++ b → b ≠ [] → matchSimpleAt name (b ++ suf) = none := by
  intro mk
  induction mk with
  | nil =>
    intro _ a b hab hb
    exact absurd (List.append_eq_nil.mp hab.symm).2 hb
  | cons x rest ih =>
    intro hok a b hab hb
    have hok2 : tagOk rest = true := by
      unfold tagOk at hok
      cases h2 : tagOk rest
      · rw [h2] at hok; simp at hok
      · rfl
    cases a with
    | nil =>
      have hbx : b = x :: rest := by simpa using hab.symm
      subst hbx
      by_cases hx : isIdentChar x = true
      · cases rest with
        | nil =>
          exfalso
          unfold tagOk at hok
          rw [hx] at hok
          simp at hok
        | cons y rest2 =>
          have hy : isIdentChar y = false ∧ isPySpace y = false ∧ y ≠ '=' := by
            unfold tagOk at hok
            rw [hx] at hok
            simp at hok
            tauto
          have : (x :: y :: rest2) ++ suf = x :: y :: (rest2 ++ suf) := rfl
          rw [this]
          exact matchSimpleAt_cons2_none hname hid hy.1 hy.2.1 hy.2.2
      · have : (x :: rest) ++ suf = x :: (rest ++ suf) := rfl
        rw [this]
        exact matchSimpleAt_cons_none hname hid (by simpa using hx)
    | cons c a2 =>
      have hx2 : x = c ∧ rest = a2 ++ b := by
        have := hab
        simp only [List.cons_append, List.cons.injEq] at this
        exact this
      exact ih hok2 a2 b hx2.2 hb

example : tagOk appendTag = true := by decide

/-- The simple-assignment pattern matched at the head of the appended
declaration `name = value` followed by the final newline: the captured
value is exactly the serialized value text. -/
theorem matchSimpleAt_append_head (name : List Char) (v0 : Char) (vt : List Char)
    (hv0a : isPySpace v0 = false) (hv0b : isSimpleValChar v0 = true)
    (hvt : ∀ c ∈ vt, isSimpleValChar c = true) :
    matchSimpleAt name (name ++ (' ' :: '=' :: ' ' :: (v0 :: (vt ++ ['\n']))))
      = some ⟨name ++ [' ', '=', ' '], v0 :: vt, ['\n']⟩ := by
  have hsp : isPySpace ' ' = true := by decide
  have heqs : isPySpace '=' = false := by decide
  have hnl : isSimpleValChar '\n' = false := by decide
  have h2 : (' ' :: '=' :: ' ' :: (v0 :: (vt ++ ['\n']))).dropWhile isPySpace
      = '=' :: (' ' :: (v0 :: (vt ++ ['\n']))) := by
    rw [List.dropWhile_cons, if_pos hsp, List.dropWhile_cons, if_neg (by simp [heqs])]
  have h3 : (' ' :: '=' :: ' ' :: (v0 :: (vt ++ ['\n']))).takeWhile isPySpace
      = [' '] := by
    rw [List.takeWhile_cons, if_pos hsp, List.takeWhile_cons, if_neg (by simp [heqs])]
  have h3b : (' ' :: (v0 :: (vt ++ ['\n']))).takeWhile isPySpace = [' '] := by
    rw [List.takeWhile_cons, if_pos hsp, List.takeWhile_cons, if_neg (by simp [hv0a])]
  have h4 : lastGoodK isSimpleValChar (' ' :: (v0 :: (vt ++ ['\n']))) 1 = some 1 := by
    simp [lastGoodK, hv0b]
  have h5 : (v0 :: (vt ++ ['\n'])).takeWhile isSimpleValChar = v0 :: vt := by
    rw [List.takeWhile_cons, if_pos (by simp [hv0b])]
    rw [takeWhile_all_append isSimpleValChar vt ['\n'] hvt]
    rw [List.takeWhile_cons, if_neg (by simp [hnl])]
    simp
  have h6 : (v0 :: (vt ++ ['\n'])).dropWhile isSimpleValChar = ['\n'] := by
    rw [List.dropWhile_cons, if_pos (by simp [hv0b])]
    rw [dropWhile_all_append isSimpleValChar vt ['\n'] hvt]
    rw [List.dropWhile_cons, if_neg (by simp [hnl])]
  simp only [matchSimpleAt, stripLit_self, h2, h3b]
  simp [h3, h4, h5, h6]

/-- `matchSimpleAt` never fires on the empty document (for a non-empty
name). -/
theorem matchSimpleAt_nil_none {name : List Char} (hname : name ≠ []) :
    matchSimpleAt name [] = none := by
  cases name with
  | nil => exact absurd rfl hname
  | cons n0 ns => rfl

/-- No match of an identifier name can start inside a document that does
not contain the name, when the text that follows begins with a newline:
either the whole name would have to occur inside the document, or it would
have to straddle into the following newline. -/
theorem no_match_into_marker {name content : List Char} (suf : List Char)
    (hname : name ≠ []) (hid : ∀ c ∈ name, isIdentChar c = true)
    (hnc : containsSeq name content = false) (X : List Char)
    (hsuf : suf = '\n' :: X) :
    ∀ a b, content = a ++ b → b ≠ [] → matchSimpleAt name (b ++ suf) = none := by
  intro a b hab _
  cases hm : matchSimpleAt name (b ++ suf) with
  | none => rfl
  | some m =>
    exfalso
    obtain ⟨t, u, hst, -⟩ := matchSimpleAt_some_decomp hm
    have he : b ++ suf = name ++ t := stripLit_eq hst
    by_cases hlen : name.length ≤ b.length
    · have h1 : (b ++ suf).take name.length = b.take name.length :=
        List.take_append_of_le_length hlen
      have h2 : (name ++ t).take name.length = name := List.take_left name t
      have hname_eq : name = b.take name.length := by
        have e1 : (name ++ t).take name.length = (b ++ suf).take name.length := by
          rw [he]
        rw [h2, h1] at e1
        exact e1
      have hbsplit : b = name ++ b.drop name.length := by
        conv_lhs => rw [← List.take_append_drop name.length b]
        rw [← hname_eq]
      have hcc : containsSeq name content = true := by
        apply containsSeq_of_split a (y := b.drop name.length)
        rw [hab]
        conv_lhs => rw [hbsplit]
      rw [hnc] at hcc
      exact Bool.noConfusion hcc
    · push_neg at hlen
      have h1 : (b ++ suf).drop b.length = suf := List.drop_left b suf
      have h2 : (name ++ t).drop b.length = name.drop b.length ++ t :=
        List.drop_append_of_le_length (le_of_lt hlen)
      have hsufeq : suf = name.drop b.length ++ t := by
        rw [← h1, he, h2]
      cases hd : name.drop b.length with
      | nil =>
        have := congrArg List.length hd
        simp at this
        omega
      | cons c0 r0 =>
        have hc0 : c0 = '\n' := by
          rw [hd, hsuf] at hsufeq
          have : '\n' :: X = c0 :: (r0 ++ t) := hsufeq
          exact (List.cons.injEq '\n' X c0 (r0 ++ t) ▸ this).1.symm
        have hmem : c0 ∈ name := by
          apply List.drop_subset b.length name
          rw [hd]
          simp
        have hic := hid c0 hmem
        rw [hc0] at hic
        exact absurd hic (by decide)

/-- `edit_settings` when no pattern matches: the append branch. -/
theorem edit_settings_append_eq (name v content : List Char)
    (hnc : containsSeq name content = false) :
    edit_settings name v content
      = content ++ (appendTag ++ (name ++ (' ' :: '=' :: ' ' :: (v ++ ['\n'])))) := by
  have h1 := searchSimple_none hnc
  have h2 := searchDict_none hnc
  have h3 := searchCommented_none hnc
  simp [edit_settings, h1, h2, h3]

/-- `edit_settings` when the simple pattern matches. -/
theorem edit_settings_of_simple_some {name v content p : List Char} {m : ReMatch}
    (h : searchAt (matchSimpleAt name) content = some (p, m)) :
    edit_settings name v content = subAll (matchSimpleAt name) (m.g1 ++ v) content := by
  unfold edit_settings
  rw [h]

/-- Searching the document produced by the append branch finds the
appended declaration through the simple-assignment pattern, with the
serialized value as the captured value. -/
theorem edit_settings_append_search (name w content : List Char)
    (hname : name ≠ []) (hid : ∀ c ∈ name, isIdentChar c = true)
    (hnc : containsSeq name content = false)
    (hw : ∀ c ∈ w, isSimpleValChar c = true) :
    searchAt (matchSimpleAt name) (edit_settings name (serializeStr w) content)
      = some (content ++ appendTag,
          ⟨name ++ [' ', '=', ' '], serializeStr w, ['\n']⟩) := by
  rw [edit_settings_append_eq name (serializeStr w) content hnc]
  have hwq : ∀ c ∈ w ++ ['\''], isSimpleValChar c := by
    intro c hc
    rcases List.mem_append.mp hc with hcw | hcq
    · exact hw c hcw
    · simp at hcq
      subst hcq
      decide
  have hmatch : matchSimpleAt name
      (name ++ (' ' :: '=' :: ' ' :: (serializeStr w ++ ['\n'])))
      = some ⟨name ++ [' ', '=', ' '], serializeStr w, ['\n']⟩ := by
    have hv : serializeStr w ++ ['\n'] = '\'' :: ((w ++ ['\'']) ++ ['\n']) := by
      simp [serializeStr]
    rw [hv]
    have := matchSimpleAt_append_head name '\'' (w ++ ['\''])
      (by decide) (by decide) hwq
    simpa [serializeStr] using this
  have htail : searchAt (matchSimpleAt name)
      (name ++ (' ' :: '=' :: ' ' :: (serializeStr w ++ ['\n'])))
      = some ([], ⟨name ++ [' ', '=', ' '], serializeStr w, ['\n']⟩) := by
    cases name with
    | nil => exact absurd rfl hname
    | cons n0 ns =>
      have hcons : (n0 :: ns) ++ (' ' :: '=' :: ' ' :: (serializeStr w ++ ['\n']))
          = n0 :: (ns ++ (' ' :: '=' :: ' ' :: (serializeStr w ++ ['\n']))) := rfl
      rw [hcons] at hmatch ⊢
      exact searchAt_cons_of_some hmatch
  have hstep2 : searchAt (matchSimpleAt name)
      (appendTag ++ (name ++ (' ' :: '=' :: ' ' :: (serializeStr w ++ ['\n']))))
      = some (appendTag, ⟨name ++ [' ', '=', ' '], serializeStr w, ['\n']⟩) := by
    rw [searchAt_append appendTag
      (tagOk_no_match hname hid _ appendTag (by decide))]
    rw [htail]
    simp
  have hcond1 : ∀ a b, content = a ++ b → b ≠ [] →
      matchSimpleAt name (b ++ (appendTag
        ++ (name ++ (' ' :: '=' :: ' ' :: (serializeStr w ++ ['\n']))))) = none :=
    no_match_into_marker _ hname hid hnc
      ("\n# Added by Django Manager\n".toList
        ++ (name ++ (' ' :: '=' :: ' ' :: (serializeStr w ++ ['\n'])))) rfl
  rw [searchAt_append content hcond1]
  rw [hstep2]
  simp

/-- Claim C6 (counterexample): for a value whose serialization contains
`#`, re-running the matcher on the appended declaration captures only the
text before the `#`, not the full serialization: the value class `[^#\n]`
stops at the comment character. -/
theorem append_on_missing_cex :
    (searchAt (matchSimpleAt "X".toList)
        (edit_settings "X".toList (serializeStr "a#b".toList) [])).map
        (fun pm => pm.2.g2)
      = some "'a".toList
    ∧ "'a".toList ≠ serializeStr "a#b".toList := by
  constructor
  · decide
  · decide

/-- Claim C6 (amended): for every document that does not contain the
declaration name, `edit_settings` succeeds and appends
`name = <serialized value>` (after the machine-added marker comment) at
end-of-file, and re-running the matcher finds the name via the
simple-assignment pattern with captured value equal to the serialization —
provided the name is an identifier and the serialized value contains no
`#` and no newline (otherwise the capture stops early, see the
counterexample). -/
theorem append_on_missing (name w content : List Char)
    (hname : name ≠ []) (hid : ∀ c ∈ name, isIdentChar c = true)
    (hnc : containsSeq name content = false)
    (hw : ∀ c ∈ w, isSimpleValChar c = true) :
    edit_settings name (serializeStr w) content
      = content ++ (appendTag
          ++ (name ++ (' ' :: '=' :: ' ' :: (serializeStr w ++ ['\n']))))
    ∧ searchAt (matchSimpleAt name) (edit_settings name (serializeStr w) content)
      = some (content ++ appendTag,
          ⟨name ++ [' ', '=', ' '], serializeStr w, ['\n']⟩) :=
  ⟨edit_settings_append_eq name (serializeStr w) content hnc,
   edit_settings_append_search name w content hname hid hnc hw⟩

theorem append_on_missing_witness :
    edit_settings "NEWKEY".toList (serializeStr "abc".toList) "X = 1".toList
      = "X = 1".toList ++ (appendTag
          ++ ("NEWKEY".toList
            ++ (' ' :: '=' :: ' ' :: (serializeStr "abc".toList ++ ['\n']))))
    ∧ searchAt (matchSimpleAt "NEWKEY".toList)
        (edit_settings "NEWKEY".toList (serializeStr "abc".toList) "X = 1".toList)
      = some ("X = 1".toList ++ appendTag,
          ⟨"NEWKEY".toList ++ [' ', '=', ' '], serializeStr "abc".toList, ['\n']⟩) :=
  append_on_missing "NEWKEY".toList "abc".toList "X = 1".toList
    (by decide) (by decide) (by decide) (by decide)


/-- Claim C7 (counterexample): applying the same mutation twice is not
idempotent for every deterministically-serialized value: with the string
value `a#b` (serialized `'a#b'`), the second application captures only
`'a` as the existing value (the value class `[^#\n]` stops at `#`) and
rewrites it, leaving a mangled `X = 'a#b'#b'`. -/
theorem edit_settings_idempotence_cex :
    edit_settings "X".toList (serializeStr "a#b".toList) "X = 0".toList
      = "X = 'a#b'".toList
    ∧ edit_settings "X".toList (serializeStr "a#b".toList)
        (edit_settings "X".toList (serializeStr "a#b".toList) "X = 0".toList)
      = "X = 'a#b'#b'".toList
    ∧ ("X = 'a#b'#b'".toList : List Char) ≠ "X = 'a#b'".toList := by
  refine ⟨?_, ?_, ?_⟩
  · decide
  · decide
  · decide

/-- Claim C7 (amended): applying the identical mutation twice yields a
document textually equal to the result of the first application, provided
the serialized value contains no `#` and no newline; proved here for every
document that does not contain the declaration name: the first call
appends the declaration and the second call rewrites the appended value in
place with the same text. -/
theorem edit_settings_idempotent_on_missing (name w content : List Char)
    (hname : name ≠ []) (hid : ∀ c ∈ name, isIdentChar c = true)
    (hnc : containsSeq name content = false)
    (hw : ∀ c ∈ w, isSimpleValChar c = true) :
    edit_settings name (serializeStr w)
        (edit_settings name (serializeStr w) content)
      = edit_settings name (serializeStr w) content := by
  have h1 := edit_settings_append_eq name (serializeStr w) content hnc
  have h2 := edit_settings_append_search name w content hname hid hnc hw
  rw [edit_settings_of_simple_some h2]
  have hrest : searchAt (matchSimpleAt name)
      (ReMatch.rest ⟨name ++ [' ', '=', ' '], serializeStr w, ['\n']⟩) = none := by
    show searchAt (matchSimpleAt name) ['\n'] = none
    rw [searchAt_cons_of_none (matchSimpleAt_cons_none hname hid (by decide))]
    rw [searchAt_nil, matchSimpleAt_nil_none hname]
    rfl
  have hshape : edit_settings name (serializeStr w) content
      = (content ++ appendTag)
        ++ (⟨name ++ [' ', '=', ' '], serializeStr w, ['\n']⟩ : ReMatch).g1
        ++ (⟨name ++ [' ', '=', ' '], serializeStr w, ['\n']⟩ : ReMatch).g2
        ++ (⟨name ++ [' ', '=', ' '], serializeStr w, ['\n']⟩ : ReMatch).rest := by
    rw [h1]
    simp [List.append_assoc]
  rw [subAll_single h2 hshape (by simp) hrest]
  rw [h1]
  simp [List.append_assoc]

theorem edit_settings_idempotent_on_missing_witness :
    edit_settings "DEBUG".toList (serializeStr "no".toList)
        (edit_settings "DEBUG".toList (serializeStr "no".toList) "Y = 1".toList)
      = edit_settings "DEBUG".toList (serializeStr "no".toList) "Y = 1".toList :=
  edit_settings_idempotent_on_missing "DEBUG".toList "no".toList "Y = 1".toList
    (by decide) (by decide) (by decide) (by decide)

end Djanbee
